import Mathlib

/-!
Verification of the K-NRM / Conv-KNRM ranking model (`knrm/model/model_knrm.py`)
against its natural-language specification.

The file shallowly embeds the parts of the program the claims are about:
checkpoint path construction, the pairwise training loop's control flow and
checkpoint-save events, the test (batch-scoring) loop, the kernel-pooling
log compressions, the hinge loss, the kernel bank (modelled from the spec,
since `BaseNN.kernal_mus` / `BaseNN.kernel_sigmas` are not part of the given
sources), and the unigram / convolutional forward scoring models over ℝ.
-/

namespace KNRM

/-! ## Checkpoint paths (KNRM.train line 439/444, KNRM.test line 492) -/

/-- `saver.save(sess, checkpoint_dir + '/data.ckpt')` — the best-validation
checkpoint path written by `KNRM.train`. -/
def trainBestSavePath (checkpoint_dir : String) : String :=
  checkpoint_dir ++ "/data.ckpt"

/-- `saver.save(sess, checkpoint_dir + '/final_data.ckpt')` — the end-of-training
checkpoint path written by `KNRM.train`. -/
def trainFinalSavePath (checkpoint_dir : String) : String :=
  checkpoint_dir ++ "/final_data.ckpt"

/-- `p = checkpoint_dir + 'data.ckpt'` — the path `KNRM.test` restores from
(note: no separator is inserted). -/
def testRestorePath (checkpoint_dir : String) : String :=
  checkpoint_dir ++ "data.ckpt"

/-- Collapse every run of consecutive `/` characters into a single `/`.
This models POSIX filesystem path resolution, under which `a//b` and `a/b`
name the same file. -/
def collapseSlashes : List Char → List Char
  | [] => []
  | c :: rest =>
    match rest with
    | [] => [c]
    | c' :: _ =>
      if c = '/' ∧ c' = '/' then collapseSlashes rest
      else c :: collapseSlashes rest

/-- Two path strings denote the same file when they agree after collapsing
repeated separators. -/
def pathEquiv (a b : String) : Prop :=
  collapseSlashes a.data = collapseSlashes b.data

/-! ## The pairwise training loop (KNRM.train, lines 331-444)

The numeric computation of each step is irrelevant to the checkpointing
claims; what is embedded faithfully is the loop's control flow: the step
counter, the batch-size skip, the eval trigger `(step + 1) % eval_frequency`,
the best-validation comparison against `smallest_val_loss` (initially
100000), the save calls, and the resume/exit(-1) branch. -/

/-- One batch yielded by the external pair generator, abstracted to the two
quantities the loop control flow reads: whether `X['idf'].shape[0]` equals
the configured batch size, and the mean validation loss that a validation
pass performed right after this step would compute. -/
structure TrainBatch where
  sizeOk : Bool
  valLoss : ℚ
deriving DecidableEq

/-- Observable events of one training run. `step` is one optimizer update
(`sess.run([optimizer, loss], ...)`); `saveBest` is
`saver.save(sess, checkpoint_dir + '/data.ckpt')`; `epochEnd` marks the point
where one epoch's batch loop has finished (`# END epoch`); `saveFinal` is
`saver.save(sess, checkpoint_dir + '/final_data.ckpt')`. -/
inductive TrainEvent
  | step
  | saveBest
  | epochEnd
  | saveFinal
deriving DecidableEq

/-- The body of the inner batch loop (lines 357-439).  State is
`(step, smallest_val_loss)`.  `step += 1` happens before the batch-size
check; a wrong-sized batch is skipped (`continue`); otherwise one optimizer
step runs, and every `eval_frequency` steps a validation pass runs and the
best-validation checkpoint is saved iff the validation loss improved. -/
def runBatch (evalFreq : ℕ) (st : ℕ × ℚ) (b : TrainBatch) : (ℕ × ℚ) × List TrainEvent :=
  let step := st.1 + 1
  if b.sizeOk = false then ((step, st.2), [])
  else if (step + 1) % evalFreq = 0 then
    if b.valLoss < st.2 then ((step, b.valLoss), [TrainEvent.step, TrainEvent.saveBest])
    else ((step, st.2), [TrainEvent.step])
  else ((step, st.2), [TrainEvent.step])

/-- One epoch: fold `runBatch` over the batches the generator yields. -/
def runEpoch (evalFreq : ℕ) (st : ℕ × ℚ) : List TrainBatch → (ℕ × ℚ) × List TrainEvent
  | [] => (st, [])
  | b :: bs =>
    let r := runBatch evalFreq st b
    let r' := runEpoch evalFreq r.1 bs
    (r'.1, r.2 ++ r'.2)

/-- All epochs in order; after each epoch's batches the `epochEnd` marker is
emitted (the `# END epoch` point, where the code only closes the pair
stream). -/
def runEpochs (evalFreq : ℕ) (st : ℕ × ℚ) : List (List TrainBatch) → (ℕ × ℚ) × List TrainEvent
  | [] => (st, [])
  | ep :: eps =>
    let r := runEpoch evalFreq st ep
    let r' := runEpochs evalFreq r.1 eps
    (r'.1, r.2 ++ [TrainEvent.epochEnd] ++ r'.2)

/-- The record returned by `tf.train.get_checkpoint_state(checkpoint_dir)`,
abstracted to the one field the code reads. -/
structure CheckpointState where
  model_checkpoint_path : Option String
deriving DecidableEq

/-- `ckpt and ckpt.model_checkpoint_path` — the checkpoint directory holds a
usable checkpoint iff a state record exists and names a checkpoint path. -/
def usableCheckpoint : Option CheckpointState → Option String
  | some r => r.model_checkpoint_path
  | none => none

/-- The event trace of a completed run: `max_epochs` epochs (the generator's
batches for epoch `e` are `gen e`), followed by the single
end-of-training save (line 444). -/
def trainBody (evalFreq maxEpochs : ℕ) (gen : ℕ → List TrainBatch) : List TrainEvent :=
  (runEpochs evalFreq (0, 100000) ((List.range maxEpochs).map gen)).2 ++ [TrainEvent.saveFinal]

/-- `KNRM.train` as a whole: if `load_model` is requested and no usable
checkpoint exists, the process exits with `exit(-1)` before any training
step (result `Except.error (-1)`, carrying no events); otherwise the run
completes and yields its event trace. -/
def trainRun (evalFreq maxEpochs : ℕ) (gen : ℕ → List TrainBatch)
    (load_model : Bool) (ck : Option CheckpointState) : Except Int (List TrainEvent) :=
  if load_model then
    match usableCheckpoint ck with
    | some _ => Except.ok (trainBody evalFreq maxEpochs gen)
    | none => Except.error (-1)
  else Except.ok (trainBody evalFreq maxEpochs gen)

/-- Save events are the checkpoint persistence points. -/
def isSave : TrainEvent → Bool
  | TrainEvent.saveBest => true
  | TrainEvent.saveFinal => true
  | _ => false

/-- `chainSaved prev tr` checks along `tr` that every `epochEnd` is
immediately preceded by a checkpoint save. -/
def chainSaved : TrainEvent → List TrainEvent → Bool
  | _, [] => true
  | prev, e :: rest =>
    (match e with
     | TrainEvent.epochEnd => isSave prev
     | _ => true) && chainSaved e rest

/-- Every epoch boundary in the trace is immediately preceded by a
checkpoint save (and the trace does not begin with an epoch boundary). -/
def epochEndsSaved : List TrainEvent → Bool
  | [] => true
  | e :: rest =>
    (match e with
     | TrainEvent.epochEnd => false
     | _ => true) && chainSaved e rest

/-- Claim C1 as stated: every completed training run persists a checkpoint
at the end of every epoch, and ends with the end-of-training checkpoint. -/
def claimC1 : Prop :=
  ∀ (evalFreq maxEpochs : ℕ) (gen : ℕ → List TrainBatch) (lm : Bool)
    (ck : Option CheckpointState) (tr : List TrainEvent),
    trainRun evalFreq maxEpochs gen lm ck = Except.ok tr →
    epochEndsSaved tr = true ∧ tr.getLast? = some TrainEvent.saveFinal

/-! ## KNRM.test parameter initialization (lines 491-496) and the
`__main__` test invocation (lines 549-555) -/

/-- How `KNRM.test` initializes the graph's parameters before scoring. -/
inductive InitAction
  | restore (path : String)
  | randomInit
deriving DecidableEq

/-- Lines 491-496: restore from `checkpoint_dir + 'data.ckpt'` when
`load_model` holds, else `tf.initialize_all_variables().run()`. -/
def testInitAction (load_model : Bool) (checkpoint_dir : String) : InitAction :=
  if load_model then InitAction.restore (testRestorePath checkpoint_dir)
  else InitAction.randomInit

/-- The `__main__` entry point always invokes `KNRM.test` with
`load_model=True` (line 553). -/
def mainTestLoadModel : Bool := true

/-! ## The batched scoring loop of KNRM.test (lines 499-517)

`for b in range(int(np.ceil(float(test_size) / batch_size)))`: each
iteration pulls the next `batch_size` test points (the external generator
together with `re_pad` pads a trailing partial batch up to the full batch
size), scores all of them, and writes every one of the `batch_size` scores
to the output file, one per line. -/

/-- `int(np.ceil(float(n) / b))`. -/
def ceilDiv (n b : ℕ) : ℕ := (n + b - 1) / b

/-- Pad a pulled batch on the right up to the batch size `b` using the
generator's padding element. -/
def padTo (b : ℕ) (pad : α) (l : List α) : List α :=
  l ++ List.replicate (b - l.length) pad

/-- `k` iterations of the scoring loop over the remaining test points:
pull up to `b` points, pad to exactly `b`, score each, emit all `b`
scores, recurse on the rest. -/
def batchLoop (b : ℕ) (pad : α) (score : α → β) : ℕ → List α → List β
  | 0, _ => []
  | k + 1, rest =>
    (padTo b pad (rest.take b)).map score ++ batchLoop b pad score k (rest.drop b)

/-- The full sequence of scores written by `KNRM.test`, in output order:
`ceil(N / batch_size)` fixed-size batches over the `N` input pairs. -/
def testOutputScores (b : ℕ) (pad : α) (score : α → β) (pairs : List α) : List β :=
  batchLoop b pad score (ceilDiv pairs.length b) pairs

/-- The text written to the output file: each score on its own line,
newline-terminated (`outfile.write('{0}\n'.format(score[0]))`). -/
def testOutputFile (b : ℕ) (pad : α) (fmt : α → String) (pairs : List α) : String :=
  String.join ((testOutputScores b pad fmt pairs).map (fun s => s ++ "\n"))

/-! ## Kernel bank

`KNRM.kernal_mus` and `KNRM.kernel_sigmas` are inherited from `BaseNN`,
which is not among the given sources; they are modelled from the spec
(§4.1). Values are exact rationals, standing in for the floats of the
program. -/

/-- Modelled from the spec: bin spacing `2.0 / (n_bins - 1)` for the
non-exact bins (`BaseNN` helper, not in the given sources). -/
def binSize (n_bins : ℕ) : ℚ := 2 / ((n_bins : ℚ) - 1)

/-- Modelled from the spec: the small fixed sigma of the exact-match bin
("e.g. 1e-3"), a constant independent of `lamb` and `n_bins`. -/
def sigmaExact : ℚ := 1e-3

/-- Modelled from the spec: the center of the `i`-th non-exact bin; the
non-exact mu values are evenly spaced centers covering `(-1, 1)` with
spacing `binSize n_bins`. -/
def muNonExact (n_bins : ℕ) (i : ℕ) : ℚ :=
  -1 + binSize n_bins / 2 + (i : ℚ) * binSize n_bins

/-- Modelled from the spec: `BaseNN.kernal_mus(n_bins, use_exact=True)` —
the exact-match bin `mu = 1.0` followed by the `n_bins - 1` evenly spaced
non-exact centers (`BaseNN` is missing from the given sources). -/
def kernal_mus (n_bins : ℕ) : List ℚ :=
  1 :: (List.range (n_bins - 1)).map (muNonExact n_bins)

/-- Modelled from the spec: `BaseNN.kernel_sigmas(n_bins, lamb,
use_exact=True)` — the small fixed exact-match sigma followed by
`sigma = lamb * binSize` for every non-exact bin (`BaseNN` is missing
from the given sources). -/
def kernel_sigmas (n_bins : ℕ) (lamb : ℚ) : List ℚ :=
  sigmaExact :: List.replicate (n_bins - 1) (lamb * binSize n_bins)

/-- Claim C6 as stated, for a given `n_bins` and `lamb`: sequences of
length `n_bins`; exact-match mu is `1.0`; the remaining mu values are
strictly increasing with spacing `2 / (n_bins - 1)`; every non-exact sigma
equals `lamb` times the spacing; all sigmas are positive; and the
exact-match sigma is below every other sigma. -/
def kernelBankClaimed (n_bins : ℕ) (lamb : ℚ) : Prop :=
  (kernal_mus n_bins).length = n_bins ∧
  (kernel_sigmas n_bins lamb).length = n_bins ∧
  (kernal_mus n_bins).head? = some 1 ∧
  (∀ i (hi : i < (kernal_mus n_bins).tail.length),
    (kernal_mus n_bins).tail[i] = muNonExact n_bins i) ∧
  (∀ i, i + 1 < n_bins - 1 →
    muNonExact n_bins i < muNonExact n_bins (i + 1) ∧
    muNonExact n_bins (i + 1) - muNonExact n_bins i = binSize n_bins) ∧
  (∀ s ∈ (kernel_sigmas n_bins lamb).tail, s = lamb * binSize n_bins) ∧
  (∀ s ∈ kernel_sigmas n_bins lamb, 0 < s) ∧
  (∀ s ∈ (kernel_sigmas n_bins lamb).tail, sigmaExact < s)

/-- The kernel-bank property as the spec model actually satisfies it: all
of `kernelBankClaimed` except that the exact-match sigma is a fixed
constant (`1e-3`, independent of `lamb`), below the other sigmas only when
`lamb` times the spacing exceeds that constant. -/
def kernelBankAmended (n_bins : ℕ) (lamb : ℚ) : Prop :=
  (kernal_mus n_bins).length = n_bins ∧
  (kernel_sigmas n_bins lamb).length = n_bins ∧
  (kernal_mus n_bins).head? = some 1 ∧
  (kernel_sigmas n_bins lamb).head? = some sigmaExact ∧
  (∀ i (hi : i < (kernal_mus n_bins).tail.length),
    (kernal_mus n_bins).tail[i] = muNonExact n_bins i) ∧
  (∀ i, i + 1 < n_bins - 1 →
    muNonExact n_bins i < muNonExact n_bins (i + 1) ∧
    muNonExact n_bins (i + 1) - muNonExact n_bins i = binSize n_bins) ∧
  (∀ s ∈ (kernel_sigmas n_bins lamb).tail, s = lamb * binSize n_bins) ∧
  (∀ s ∈ kernel_sigmas n_bins lamb, 0 < s) ∧
  (sigmaExact < lamb * binSize n_bins →
    ∀ s ∈ (kernel_sigmas n_bins lamb).tail, sigmaExact < s)

/-! ## Kernel-pooling log compressions (KNRM.model line 126, KNRM.conv_model
line 232) and the hinge loss (KNRM.train line 324) -/

/-- `kde = tf.log(tf.maximum(kde, 1e-10)) * 0.01` — the unigram path's
log compression. -/
noncomputable def logCompressUnigram (kde : ℝ) : ℝ :=
  Real.log (max kde 1e-10) * 0.01

/-- `kde = tf.log1p(kde)` — the convolution path's log compression. -/
noncomputable def logCompressConv (kde : ℝ) : ℝ :=
  Real.log (1 + kde)

/-- One pair's contribution to
`loss = tf.reduce_mean(tf.maximum(0.0, 1 - o_pos + o_neg))`. -/
noncomputable def pairLoss (o_pos o_neg : ℝ) : ℝ :=
  max 0 (1 - o_pos + o_neg)

/-- The training loss: the mean over the batch of the per-pair hinge
losses. -/
noncomputable def hingeLoss (scores : List (ℝ × ℝ)) : ℝ :=
  ((scores.map fun p => pairLoss p.1 p.2).sum) / scores.length

/-! ## The forward scoring models (KNRM.model lines 86-162, KNRM.conv_model
lines 164-271)

Tensors are embedded as functions of their indices over ℝ (floats are
modelled as reals); reductions are finite sums over the configured
dimensions. -/

/-- The shape configuration the graph is built against. -/
structure ModelConfig where
  batch_size : ℕ
  max_q_len : ℕ
  max_d_len : ℕ
  n_bins : ℕ
  embedding_size : ℕ
  num_filters : ℕ

/-- The trainable parameters: the embedding table, the unigram scoring
layer `W1`/`b1`, the per-window-size convolution filters and biases, and
the convolution-mode scoring matrix `W2` (which shares the bias `b1`,
line 252). -/
structure Params where
  embeddings : ℕ → ℕ → ℝ
  W1 : ℕ → ℝ
  b1 : ℝ
  convKernel : ℕ → ℕ → ℕ → ℕ → ℝ
  convBias : ℕ → ℕ → ℝ
  W2 : ℕ → ℝ

/-- One forward pass's inputs: padded term-id sequences, the padding mask,
the query-term weights, and the kernel bank fed through the `input_mu` /
`input_sigma` placeholders. -/
structure BatchInputs where
  q : ℕ → ℕ → ℕ
  d : ℕ → ℕ → ℕ
  mask : ℕ → ℕ → ℕ → ℝ
  qw : ℕ → ℕ → ℝ
  mu : ℕ → ℝ
  sigma : ℕ → ℝ

/-- `tf.nn.embedding_lookup(self.embeddings, ids)`. -/
def embedLookup (P : Params) (ids : ℕ → ℕ → ℕ) (b i k : ℕ) : ℝ :=
  P.embeddings (ids b i) k

/-- L2-normalize a vector along its last dimension:
`v / tf.sqrt(tf.reduce_sum(tf.square(v), 2, keep_dims=True))`. -/
noncomputable def l2normalize (dim : ℕ) (v : ℕ → ℝ) (k : ℕ) : ℝ :=
  v k / Real.sqrt (∑ j ∈ Finset.range dim, v j ^ 2)

/-- The unigram cosine-similarity matrix
`sim = tf.matmul(normalized_q_embed, tf.transpose(normalized_d_embed))`. -/
noncomputable def simMatrix (cfg : ModelConfig) (P : Params) (inp : BatchInputs)
    (b i j : ℕ) : ℝ :=
  ∑ k ∈ Finset.range cfg.embedding_size,
    l2normalize cfg.embedding_size (embedLookup P inp.q b i) k *
    l2normalize cfg.embedding_size (embedLookup P inp.d b j) k

/-- The Gaussian kernel response
`tf.exp(-tf.square(s - mu) / (tf.multiply(tf.square(sigma), 2)))`. -/
noncomputable def gaussKernel (mu sigma : ℕ → ℝ) (s : ℝ) (r : ℕ) : ℝ :=
  Real.exp (-(s - mu r) ^ 2 / (sigma r ^ 2 * 2))

/-- The unigram per-kernel summed density: kernel responses are masked
(`tmp = tmp * mask`) and summed over the document dimension
(`kde = tf.reduce_sum(tmp, [2])`). -/
noncomputable def kdeUnigram (cfg : ModelConfig) (P : Params) (inp : BatchInputs)
    (b i r : ℕ) : ℝ :=
  ∑ j ∈ Finset.range cfg.max_d_len,
    gaussKernel inp.mu inp.sigma (simMatrix cfg P inp b i j) r * inp.mask b i j

/-- The unigram pooled feature
`aggregated_kde = tf.reduce_sum(kde * q_weights, [1])` after the unigram
log compression. -/
noncomputable def aggUnigram (cfg : ModelConfig) (P : Params) (inp : BatchInputs)
    (b r : ℕ) : ℝ :=
  ∑ i ∈ Finset.range cfg.max_q_len,
    logCompressUnigram (kdeUnigram cfg P inp b i r) * inp.qw b i

/-- The unigram score `o = tf.tanh(tf.matmul(feats_flat, self.W1) + self.b1)`
for batch row `b` (`KNRM.model`'s return value). -/
noncomputable def model_score (cfg : ModelConfig) (P : Params) (inp : BatchInputs)
    (b : ℕ) : ℝ :=
  Real.tanh ((∑ r ∈ Finset.range cfg.n_bins, aggUnigram cfg P inp b r * P.W1 r) + P.b1)

/-- `KNRM.kernel_sizes = [1, 2, 3]` (class attribute, line 43). -/
def kernel_sizes : List ℕ := [1, 2, 3]

/-- `tf.layers.conv1d(x, num_filters, size, padding='same',
activation=tf.nn.relu)` at output position `i`, filter `f`: a cross-
correlation window of width `size` over the zero-padded input (left pad
`(size - 1) / 2`), plus the filter bias, rectified. -/
noncomputable def conv1dSame (cfg : ModelConfig) (size : ℕ)
    (kernel : ℕ → ℕ → ℕ → ℝ) (bias : ℕ → ℝ) (len : ℕ) (x : ℕ → ℕ → ℝ)
    (i f : ℕ) : ℝ :=
  max 0 ((∑ w ∈ Finset.range size, ∑ k ∈ Finset.range cfg.embedding_size,
    (if 0 ≤ (i : ℤ) + w - ((size - 1) / 2 : ℕ) ∧ (i : ℤ) + w - ((size - 1) / 2 : ℕ) < len
     then x ((i : ℤ) + w - ((size - 1) / 2 : ℕ)).toNat k else 0) * kernel w k f) + bias f)

/-- The window-size-`s` convolution of the query embeddings, L2-normalized
along the filter dimension. -/
noncomputable def normConvQ (cfg : ModelConfig) (P : Params) (inp : BatchInputs)
    (s b i f : ℕ) : ℝ :=
  l2normalize cfg.num_filters
    (conv1dSame cfg s (P.convKernel s) (P.convBias s) cfg.max_q_len (embedLookup P inp.q b) i) f

/-- The window-size-`s` convolution of the document embeddings,
L2-normalized along the filter dimension. -/
noncomputable def normConvD (cfg : ModelConfig) (P : Params) (inp : BatchInputs)
    (s b j f : ℕ) : ℝ :=
  l2normalize cfg.num_filters
    (conv1dSame cfg s (P.convKernel s) (P.convBias s) cfg.max_d_len (embedLookup P inp.d b) j) f

/-- One of the `len(kernel_sizes)^2` cross-scale similarity matrices:
`tf.matmul(normalized_q_conv, normalized_d_conv_t)` for query window size
`sq` and document window size `sd`. -/
noncomputable def simConv (cfg : ModelConfig) (P : Params) (inp : BatchInputs)
    (sq sd b i j : ℕ) : ℝ :=
  ∑ f ∈ Finset.range cfg.num_filters,
    normConvQ cfg P inp sq b i f * normConvD cfg P inp sd b j f

/-- The convolution path's per-kernel summed density for the `(sq, sd)`
similarity matrix. -/
noncomputable def kdeConv (cfg : ModelConfig) (P : Params) (inp : BatchInputs)
    (sq sd b i r : ℕ) : ℝ :=
  ∑ j ∈ Finset.range cfg.max_d_len,
    gaussKernel inp.mu inp.sigma (simConv cfg P inp sq sd b i j) r * inp.mask b i j

/-- The convolution path's pooled feature for the `(sq, sd)` similarity
matrix, using the `log1p` compression. -/
noncomputable def aggConv (cfg : ModelConfig) (P : Params) (inp : BatchInputs)
    (sq sd b r : ℕ) : ℝ :=
  ∑ i ∈ Finset.range cfg.max_q_len,
    logCompressConv (kdeConv cfg P inp sq sd b i r) * inp.qw b i

/-- The ordered `(query window, document window)` pairs in the order the
nested loops build `simis`: the query scale is the outer loop. -/
def simPairs : List (ℕ × ℕ) :=
  kernel_sizes.flatMap fun sq => kernel_sizes.map fun sd => (sq, sd)

/-- `feats_tmp = tf.concat(feats, 1)` — the concatenated convolution-mode
feature vector of batch row `b`, one `n_bins` block per similarity
matrix. -/
noncomputable def convFeats (cfg : ModelConfig) (P : Params) (inp : BatchInputs)
    (b : ℕ) : List ℝ :=
  simPairs.flatMap fun p =>
    (List.range cfg.n_bins).map fun r => aggConv cfg P inp p.1 p.2 b r

/-- `tf.matmul(feats_tmp, W)` for a feature vector given as a list. -/
noncomputable def dotW (feats : List ℝ) (W : ℕ → ℝ) : ℝ :=
  ∑ i ∈ Finset.range feats.length, feats.getD i 0 * W i

/-- The convolution-mode score
`o = tf.tanh(tf.matmul(feats_tmp, self.W2) + self.b1)` for batch row `b`
(`KNRM.conv_model`'s return value). -/
noncomputable def conv_model_score (cfg : ModelConfig) (P : Params) (inp : BatchInputs)
    (b : ℕ) : ℝ :=
  Real.tanh (dotW (convFeats cfg P inp b) P.W2 + P.b1)

/-- `self.W1 = KNRM.weight_variable([self.n_bins, 1])` — the number of rows
of the unigram scoring matrix (line 62). -/
def W1_rows (n_bins : ℕ) : ℕ := n_bins

/-- `length = pow(len(self.kernel_sizes), 2);`
`self.W2 = KNRM.weight_variable([self.n_bins * length, 1])` — the number of
rows of the convolution-mode scoring matrix (lines 64-65). -/
def W2_rows (n_bins : ℕ) : ℕ := n_bins * kernel_sizes.length ^ 2

/-- The unigram feature width: `feats_flat = tf.reshape(feats_tmp,
[-1, self.n_bins])` (line 139). -/
def featWidthUnigram (n_bins : ℕ) : ℕ := n_bins

/-! ## The two forward passes of one training step (KNRM.train lines
312-323)

Both passes are built from the same `self`: they read the identical
parameter set (`self.embeddings`, `self.W1`/`self.b1`, and in convolution
mode the `cnn`/`kernel`/`fc` variable scopes reused via
`scope.reuse_variables()` and `tf.AUTO_REUSE`). This sharing is embedded
by passing one and the same `Params` value to both passes. -/

/-- The positive-pass and negative-pass score vectors of one training step
(`o_pos`, `o_neg`); `conv` selects `KNRM.conv_model` over `KNRM.model`. -/
noncomputable def trainStepScores (conv : Bool) (cfg : ModelConfig) (P : Params)
    (q dpos dneg : ℕ → ℕ → ℕ) (mpos mneg : ℕ → ℕ → ℕ → ℝ) (qw : ℕ → ℕ → ℝ)
    (mu sigma : ℕ → ℝ) : (ℕ → ℝ) × (ℕ → ℝ) :=
  if conv then
    (conv_model_score cfg P ⟨q, dpos, mpos, qw, mu, sigma⟩,
     conv_model_score cfg P ⟨q, dneg, mneg, qw, mu, sigma⟩)
  else
    (model_score cfg P ⟨q, dpos, mpos, qw, mu, sigma⟩,
     model_score cfg P ⟨q, dneg, mneg, qw, mu, sigma⟩)

/-! # Theorems -/

/-- Helper: the hyperbolic tangent lies strictly between -1 and 1. -/
theorem tanh_mem_Ioo (x : ℝ) : -1 < Real.tanh x ∧ Real.tanh x < 1 := by
  have hc : 0 < Real.cosh x := Real.cosh_pos x
  have h1 : Real.cosh x + Real.sinh x = Real.exp x := Real.cosh_add_sinh x
  have h2 : Real.cosh x - Real.sinh x = Real.exp (-x) := Real.cosh_sub_sinh x
  have he1 : 0 < Real.exp x := Real.exp_pos x
  have he2 : 0 < Real.exp (-x) := Real.exp_pos (-x)
  rw [Real.tanh_eq_sinh_div_cosh]
  constructor
  · rw [lt_div_iff₀ hc]
    linarith
  · rw [div_lt_one hc]
    linarith

/-- C8: when `KNRM.train` is invoked with `load_model=True` and the
checkpoint directory holds no usable checkpoint, the run terminates with
`exit(-1)` — a non-zero status — carrying no training-step events at all. -/
theorem C8_resume_without_checkpoint_fatal (evalFreq maxEpochs : ℕ)
    (gen : ℕ → List TrainBatch) (ck : Option CheckpointState)
    (h : usableCheckpoint ck = none) :
    trainRun evalFreq maxEpochs gen true ck = Except.error (-1) ∧ ((-1 : ℤ) ≠ 0) := by
  refine ⟨?_, by decide⟩
  unfold trainRun
  rw [h]
  rfl

/-- Witness for C8 at the concrete input `ck = none`. -/
theorem C8_resume_without_checkpoint_fatal_witness :
    usableCheckpoint (none : Option CheckpointState) = none ∧
    (trainRun 10 2 (fun _ => []) true none = Except.error (-1) ∧ ((-1 : ℤ) ≠ 0)) :=
  ⟨rfl, C8_resume_without_checkpoint_fatal 10 2 (fun _ => []) none rfl⟩

/-- C2 counterexample: calling `KNRM.test` with `load_model=False` takes the
`tf.initialize_all_variables().run()` branch — an execution path through
inference that randomly initializes the parameters instead of restoring
them from a checkpoint. -/
theorem C2_counterexample :
    testInitAction false "save/" = InitAction.randomInit := rfl

/-- C2 amended: the `__main__` entry point always invokes `KNRM.test` with
`load_model=True`, so command-line inference always restores the parameters
from `checkpoint_dir + 'data.ckpt'`; the `test` method itself, however,
randomly initializes the parameters exactly when it is called with
`load_model=False`. -/
theorem C2_amended_cli_always_restores :
    (∀ dir, testInitAction mainTestLoadModel dir =
      InitAction.restore (testRestorePath dir)) ∧
    (∀ lm dir, testInitAction lm dir = InitAction.randomInit ↔ lm = false) := by
  constructor
  · intro dir; rfl
  · intro lm dir
    cases lm <;> simp [testInitAction]

/-- C5 counterexample: the claim's literal example `pos=0.9, neg=0.2` does
not give loss 0: the per-pair hinge loss is `max(0, 1 - 0.9 + 0.2) = 0.3`. -/
theorem C5_counterexample :
    pairLoss 0.9 0.2 = 0.3 ∧ (0.3 : ℝ) ≠ 0 := by
  constructor
  · unfold pairLoss
    rw [max_eq_right (by norm_num : (0:ℝ) ≤ 1 - 0.9 + 0.2)]
    norm_num
  · norm_num

/-- C5 amended: the training loss is the mean over the batch of
`max(0, 1 - o_pos + o_neg)`; the per-pair loss is zero exactly when
`o_pos - o_neg ≥ 1` and positive otherwise; the literal examples give
`pos=0.9, neg=0.2 → 0.3` (not 0) and `pos=0.5, neg=0.6 → 1.1`. -/
theorem C5_amended_hinge (o_pos o_neg : ℝ) (scores : List (ℝ × ℝ)) :
    hingeLoss scores = ((scores.map fun p => pairLoss p.1 p.2).sum) / scores.length ∧
    (pairLoss o_pos o_neg = 0 ↔ 1 ≤ o_pos - o_neg) ∧
    (o_pos - o_neg < 1 → 0 < pairLoss o_pos o_neg) ∧
    pairLoss 0.9 0.2 = 0.3 ∧
    pairLoss 0.5 0.6 = 1.1 := by
  refine ⟨rfl, ?_, ?_, ?_, ?_⟩
  · unfold pairLoss
    constructor
    · intro h
      by_contra hlt
      push_neg at hlt
      have hpos : 0 < 1 - o_pos + o_neg := by linarith
      rw [max_eq_right hpos.le] at h
      linarith
    · intro h
      rw [max_eq_left (by linarith)]
  · intro h
    unfold pairLoss
    have hpos : 0 < 1 - o_pos + o_neg := by linarith
    calc (0:ℝ) < 1 - o_pos + o_neg := hpos
    _ ≤ max 0 (1 - o_pos + o_neg) := le_max_right _ _
  · unfold pairLoss
    rw [max_eq_right (by norm_num : (0:ℝ) ≤ 1 - 0.9 + 0.2)]
    norm_num
  · unfold pairLoss
    rw [max_eq_right (by norm_num : (0:ℝ) ≤ 1 - 0.5 + 0.6)]
    norm_num

/-- Witness for C5: at `pos=0.5, neg=0.6` the margin is violated and the
per-pair loss is positive. -/
theorem C5_amended_hinge_witness :
    (0.5 : ℝ) - 0.6 < 1 ∧ 0 < pairLoss 0.5 0.6 :=
  ⟨by norm_num, (C5_amended_hinge 0.5 0.6 []).2.2.1 (by norm_num)⟩

/-- C4: the unigram path compresses each summed kernel density `kde` as
`log(max(kde, 1e-10)) * 0.01` and the convolution path as `log(1 + kde)`
(two different compressions, differing e.g. at `kde = 0`); the clamp at
`1e-10` is applied before the logarithm, so the unigram compression is
bounded below by the finite value `log(1e-10) * 0.01` — never negative
infinity. -/
theorem C4_log_compressions (kde : ℝ) :
    logCompressUnigram kde = Real.log (max kde 1e-10) * 0.01 ∧
    logCompressConv kde = Real.log (1 + kde) ∧
    Real.log 1e-10 * 0.01 ≤ logCompressUnigram kde ∧
    logCompressUnigram 0 ≠ logCompressConv 0 := by
  refine ⟨rfl, rfl, ?_, ?_⟩
  · unfold logCompressUnigram
    have h1 : (0:ℝ) < 1e-10 := by norm_num
    have h2 : (1e-10:ℝ) ≤ max kde 1e-10 := le_max_right _ _
    exact mul_le_mul_of_nonneg_right (Real.log_le_log h1 h2) (by norm_num)
  · unfold logCompressUnigram logCompressConv
    rw [max_eq_right (by norm_num : (0:ℝ) ≤ 1e-10), add_zero, Real.log_one]
    have hneg : Real.log 1e-10 < 0 :=
      Real.log_neg (by norm_num) (by norm_num)
    exact mul_ne_zero hneg.ne (by norm_num)

/-- C7: the positive-document and negative-document forward passes of one
training step read the identical parameter set (the same `Params` value is
bound into both graphs, in both unigram and convolution mode); hence when
the negative document ids and mask equal the positive ones, the two score
vectors coincide. -/
theorem C7_shared_params (conv : Bool) (cfg : ModelConfig) (P : Params)
    (q dpos dneg : ℕ → ℕ → ℕ) (mpos mneg : ℕ → ℕ → ℕ → ℝ) (qw : ℕ → ℕ → ℝ)
    (mu sigma : ℕ → ℝ) (hd : dneg = dpos) (hm : mneg = mpos) :
    (trainStepScores conv cfg P q dpos dneg mpos mneg qw mu sigma).2 =
      (trainStepScores conv cfg P q dpos dneg mpos mneg qw mu sigma).1 := by
  subst hd
  subst hm
  cases conv <;> rfl

/-- Witness for C7 at a concrete batch whose negative document equals its
positive document. -/
theorem C7_shared_params_witness :
    (trainStepScores true ⟨1, 1, 1, 1, 1, 1⟩
        ⟨fun _ _ => 1, fun _ => 1, 0, fun _ _ _ _ => 1, fun _ _ => 0, fun _ => 1⟩
        (fun _ _ => 1) (fun _ _ => 2) (fun _ _ => 2)
        (fun _ _ _ => 1) (fun _ _ _ => 1)
        (fun _ _ => 1) (fun _ => 0) (fun _ => 1)).2 =
    (trainStepScores true ⟨1, 1, 1, 1, 1, 1⟩
        ⟨fun _ _ => 1, fun _ => 1, 0, fun _ _ _ _ => 1, fun _ _ => 0, fun _ => 1⟩
        (fun _ _ => 1) (fun _ _ => 2) (fun _ _ => 2)
        (fun _ _ _ => 1) (fun _ _ _ => 1)
        (fun _ _ => 1) (fun _ => 0) (fun _ => 1)).1 :=
  C7_shared_params true _ _ _ _ _ _ _ _ _ _ rfl rfl

/-- C10: both scorers map the pooled feature vector through a linear layer
plus bias and a hyperbolic tangent, so every emitted score lies strictly in
(-1, 1); the unigram weight matrix `W1` has exactly `n_bins` rows, matching
the unigram feature width, and the convolution-mode weight matrix `W2` has
`n_bins * len(kernel_sizes)^2` rows, exactly the length of the concatenated
convolution-mode feature vector. -/
theorem C10_scorer (cfg : ModelConfig) (P : Params) (inp : BatchInputs) (b n : ℕ) :
    (-1 < model_score cfg P inp b ∧ model_score cfg P inp b < 1) ∧
    (-1 < conv_model_score cfg P inp b ∧ conv_model_score cfg P inp b < 1) ∧
    W1_rows n = featWidthUnigram n ∧
    (convFeats cfg P inp b).length = W2_rows cfg.n_bins := by
  refine ⟨tanh_mem_Ioo _, tanh_mem_Ioo _, rfl, ?_⟩
  simp [convFeats, W2_rows, simPairs, kernel_sizes]
  ring

/-- Helper: unfolding `collapseSlashes` on a list with at least two
elements. -/
theorem collapseSlashes_cons₂ (c c' : Char) (rest : List Char) :
    collapseSlashes (c :: c' :: rest) =
      if c = '/' ∧ c' = '/' then collapseSlashes (c' :: rest)
      else c :: collapseSlashes (c' :: rest) := rfl

/-- Helper: appending `sep ++ suffix` versus `suffix` (for a suffix whose
first character is not a separator) collapses to the same path exactly when
the prefix already ends in a separator. -/
theorem collapse_append_iff (c0 : Char) (hc0 : ¬c0 = '/') (s : List Char) :
    ∀ l : List Char,
      (collapseSlashes (l ++ c0 :: s) = collapseSlashes (l ++ '/' :: c0 :: s) ↔
        l.getLast? = some '/') := by
  intro l
  induction l with
  | nil =>
    have e1 : ([] : List Char) ++ c0 :: s = c0 :: s := rfl
    have e2 : ([] : List Char) ++ '/' :: c0 :: s = '/' :: c0 :: s := rfl
    rw [e1, e2, collapseSlashes_cons₂,
      if_neg (fun h : '/' = '/' ∧ c0 = '/' => hc0 h.2)]
    constructor
    · intro h
      exact absurd h.symm (List.cons_ne_self _ _)
    · intro h
      simp at h
  | cons c t ih =>
    cases t with
    | nil =>
      have e1 : [c] ++ c0 :: s = c :: c0 :: s := rfl
      have e2 : [c] ++ '/' :: c0 :: s = c :: '/' :: c0 :: s := rfl
      rw [e1, e2, collapseSlashes_cons₂,
        if_neg (fun h : c = '/' ∧ c0 = '/' => hc0 h.2), collapseSlashes_cons₂]
      by_cases hc : c = '/'
      · subst hc
        rw [if_pos ⟨rfl, rfl⟩, collapseSlashes_cons₂,
          if_neg (fun h : '/' = '/' ∧ c0 = '/' => hc0 h.2)]
        simp
      · rw [if_neg (fun h : c = '/' ∧ '/' = '/' => hc h.1), collapseSlashes_cons₂,
          if_neg (fun h : '/' = '/' ∧ c0 = '/' => hc0 h.2)]
        simp only [List.cons.injEq, true_and]
        constructor
        · intro h
          exact absurd h.symm (List.cons_ne_self _ _)
        · intro h
          simp at h
          exact absurd h hc
    | cons c' t' =>
      have happ₁ : (c :: c' :: t') ++ c0 :: s = c :: c' :: (t' ++ c0 :: s) := rfl
      have happ₂ : (c :: c' :: t') ++ '/' :: c0 :: s = c :: c' :: (t' ++ '/' :: c0 :: s) := rfl
      rw [happ₁, happ₂, collapseSlashes_cons₂, collapseSlashes_cons₂,
        List.getLast?_cons_cons]
      have ht₁ : (c' :: (t' ++ c0 :: s)) = (c' :: t') ++ c0 :: s := rfl
      have ht₂ : (c' :: (t' ++ '/' :: c0 :: s)) = (c' :: t') ++ '/' :: c0 :: s := rfl
      by_cases hq : c = '/' ∧ c' = '/'
      · rw [if_pos hq, if_pos hq, ht₁, ht₂]
        exact ih
      · rw [if_neg hq, if_neg hq, ht₁, ht₂]
        simp only [List.cons.injEq, true_and]
        exact ih

/-- C3: the path `KNRM.test` restores the best-validation checkpoint from
(`checkpoint_dir + 'data.ckpt'`, no separator inserted) names the same file
as the path `KNRM.train` saved it to (`checkpoint_dir + '/data.ckpt'`) —
equality of the resolved filesystem path, i.e. after collapsing repeated
separators — if and only if `checkpoint_dir` ends with `'/'`; for any
`checkpoint_dir` not ending in `'/'`, the round trip reads a different path
than was written. -/
theorem C3_checkpoint_path_roundtrip (checkpoint_dir : String) :
    pathEquiv (testRestorePath checkpoint_dir) (trainBestSavePath checkpoint_dir) ↔
      checkpoint_dir.data.getLast? = some '/' := by
  have h := collapse_append_iff 'd' (by decide)
    ['a', 't', 'a', '.', 'c', 'k', 'p', 't'] checkpoint_dir.data
  unfold pathEquiv testRestorePath trainBestSavePath
  rw [String.data_append, String.data_append]
  have h1 : "data.ckpt".data = 'd' :: ['a', 't', 'a', '.', 'c', 'k', 'p', 't'] := rfl
  have h2 : "/data.ckpt".data = '/' :: 'd' :: ['a', 't', 'a', '.', 'c', 'k', 'p', 't'] := rfl
  rw [h1, h2]
  exact h

/-- Helper: one batch emits only optimizer-step and best-validation-save
events. -/
theorem runBatch_events (f : ℕ) (st : ℕ × ℚ) (b : TrainBatch) :
    ∀ e ∈ (runBatch f st b).2, e = TrainEvent.step ∨ e = TrainEvent.saveBest := by
  intro e he
  by_cases h1 : b.sizeOk = false
  · simp [runBatch, h1] at he
  · by_cases h2 : (st.1 + 1 + 1) % f = 0
    · by_cases h3 : b.valLoss < st.2
      · simp [runBatch, h1, h2, h3] at he
        exact he
      · simp [runBatch, h1, h2, h3] at he
        exact Or.inl he
    · simp [runBatch, h1, h2] at he
      exact Or.inl he

/-- Helper: an epoch's batch loop emits only step and best-validation-save
events. -/
theorem runEpoch_events (f : ℕ) :
    ∀ (bs : List TrainBatch) (st : ℕ × ℚ),
      ∀ e ∈ (runEpoch f st bs).2, e = TrainEvent.step ∨ e = TrainEvent.saveBest := by
  intro bs
  induction bs with
  | nil =>
    intro st e he
    simp [runEpoch] at he
  | cons b bs ih =>
    intro st e he
    simp only [runEpoch, List.mem_append] at he
    rcases he with h | h
    · exact runBatch_events f st b e h
    · exact ih _ e h

/-- Helper: the epoch loop never emits the end-of-training save; that event
is appended only once, after all epochs. -/
theorem saveFinal_not_mem_runEpochs (f : ℕ) :
    ∀ (eps : List (List TrainBatch)) (st : ℕ × ℚ),
      TrainEvent.saveFinal ∉ (runEpochs f st eps).2 := by
  intro eps
  induction eps with
  | nil =>
    intro st h
    simp [runEpochs] at h
  | cons ep eps ih =>
    intro st h
    simp only [runEpochs, List.append_assoc, List.mem_append, List.mem_singleton,
      List.mem_cons, List.not_mem_nil] at h
    rcases h with h | h | h
    · rcases runEpoch_events f ep st _ h with h' | h' <;> exact TrainEvent.noConfusion h'
    · rcases h with h | h
      · exact TrainEvent.noConfusion h
      · exact h.elim
    · exact ih _ h

/-- Helper: a completed training run's trace is the body produced by the
epoch loop. -/
theorem trainRun_ok (f m : ℕ) (gen : ℕ → List TrainBatch) (lm : Bool)
    (ck : Option CheckpointState) (tr : List TrainEvent)
    (h : trainRun f m gen lm ck = Except.ok tr) : tr = trainBody f m gen := by
  unfold trainRun at h
  cases lm with
  | false =>
    simp at h
    exact h.symm
  | true =>
    cases hc : usableCheckpoint ck with
    | some p =>
      rw [hc] at h
      simp at h
      exact h.symm
    | none =>
      rw [hc] at h
      simp at h

/-- C1 counterexample: a concrete completed two-epoch run (one correctly
sized batch per epoch, evaluation frequency 10, so no eval fires) produces
the trace `[step, epochEnd, step, epochEnd, saveFinal]`: no checkpoint is
persisted at either epoch's end, refuting the claim that a checkpoint is
saved at the end of every epoch. -/
theorem C1_counterexample : ¬claimC1 := by
  intro h
  have h2 := (h 10 2 (fun _ => [⟨true, 0⟩]) false none
      [TrainEvent.step, TrainEvent.epochEnd, TrainEvent.step, TrainEvent.epochEnd,
        TrainEvent.saveFinal] rfl).1
  exact absurd h2 (by decide)

/-- C1 amended: whenever `KNRM.train` runs to completion, its one and only
end-of-training checkpoint save (`final_data.ckpt`, an event distinct from
the best-validation save) happens after the last epoch, as the final action
of the run; the code does not persist a checkpoint at the end of each
epoch (best-validation checkpoints are written only at eval-improvement
points inside an epoch). -/
theorem C1_amended_final_checkpoint (f m : ℕ) (gen : ℕ → List TrainBatch)
    (lm : Bool) (ck : Option CheckpointState) (tr : List TrainEvent)
    (h : trainRun f m gen lm ck = Except.ok tr) :
    tr.getLast? = some TrainEvent.saveFinal ∧
    TrainEvent.saveFinal ∉ tr.dropLast ∧
    TrainEvent.saveBest ≠ TrainEvent.saveFinal := by
  have htr := trainRun_ok f m gen lm ck tr h
  subst htr
  refine ⟨?_, ?_, by decide⟩
  · exact List.getLast?_concat _
  · unfold trainBody
    rw [List.dropLast_concat]
    exact saveFinal_not_mem_runEpochs f _ _

/-- Witness for C1 (amended) at the concrete two-epoch run. -/
theorem C1_amended_final_checkpoint_witness :
    trainRun 10 2 (fun _ => [⟨true, 0⟩]) false none =
      Except.ok [TrainEvent.step, TrainEvent.epochEnd, TrainEvent.step,
        TrainEvent.epochEnd, TrainEvent.saveFinal] ∧
    ([TrainEvent.step, TrainEvent.epochEnd, TrainEvent.step, TrainEvent.epochEnd,
        TrainEvent.saveFinal].getLast? = some TrainEvent.saveFinal ∧
      TrainEvent.saveFinal ∉ [TrainEvent.step, TrainEvent.epochEnd, TrainEvent.step,
        TrainEvent.epochEnd, TrainEvent.saveFinal].dropLast ∧
      TrainEvent.saveBest ≠ TrainEvent.saveFinal) :=
  ⟨rfl, C1_amended_final_checkpoint 10 2 (fun _ => [⟨true, 0⟩]) false none _ rfl⟩

/-- C6 counterexample: at `n_bins = 2`, `lamb = 1/10000` the spec-modelled
kernel bank gives exact-match sigma `1e-3` but non-exact sigma
`1/10000 * 2 = 1/5000 < 1e-3`: the exact-match sigma is not below the
others, refuting the claim's universal quantification over all
`lamb > 0`. -/
theorem C6_counterexample : ¬kernelBankClaimed 2 (1 / 10000) := by
  intro h
  have hs := h.2.2.2.2.2.2.2 (1 / 10000 * binSize 2) (by simp [kernel_sigmas])
  rw [sigmaExact, binSize] at hs
  norm_num at hs

/-- C6 amended (spec-modelled kernel bank): for every `n_bins ≥ 2` and
`lamb > 0`, the mu and sigma sequences have length `n_bins`; the
exact-match bin has `mu = 1.0` and the fixed sigma `1e-3` (a constant
independent of `lamb` and `n_bins`); the remaining mu values are evenly
spaced with spacing `2 / (n_bins - 1)` and strictly increasing; every
non-exact sigma equals `lamb` times the spacing; all sigmas are positive;
and the exact-match sigma is below the others whenever `lamb` times the
spacing exceeds `1e-3` (e.g. at the default `lamb = 0.5` for moderate
`n_bins`). -/
theorem C6_amended_kernel_bank (n_bins : ℕ) (lamb : ℚ) (hn : 2 ≤ n_bins)
    (hl : 0 < lamb) : kernelBankAmended n_bins lamb := by
  have hn1 : (1 : ℚ) ≤ (n_bins : ℚ) - 1 := by
    have h2 : (2 : ℚ) ≤ (n_bins : ℚ) := by exact_mod_cast hn
    linarith
  have hbin : 0 < binSize n_bins := by
    unfold binSize
    exact div_pos (by norm_num) (by linarith)
  refine ⟨?_, ?_, rfl, rfl, ?_, ?_, ?_, ?_, ?_⟩
  · simp only [kernal_mus, List.length_cons, List.length_map, List.length_range]
    omega
  · simp only [kernel_sigmas, List.length_cons, List.length_replicate]
    omega
  · intro i hi
    simp [kernal_mus]
  · intro i h
    have hdiff : muNonExact n_bins (i + 1) - muNonExact n_bins i = binSize n_bins := by
      unfold muNonExact
      push_cast
      ring
    exact ⟨by linarith, hdiff⟩
  · intro s hs
    simp only [kernel_sigmas, List.tail_cons] at hs
    exact List.eq_of_mem_replicate hs
  · intro s hs
    simp only [kernel_sigmas, List.mem_cons] at hs
    rcases hs with h | h
    · rw [h, sigmaExact]
      norm_num
    · rw [List.eq_of_mem_replicate h]
      exact mul_pos hl hbin
  · intro hc s hs
    simp only [kernel_sigmas, List.tail_cons] at hs
    rw [List.eq_of_mem_replicate hs]
    exact hc

/-- Witness for C6 (amended) at `n_bins = 11`, `lamb = 2`. -/
theorem C6_amended_kernel_bank_witness :
    2 ≤ 11 ∧ (0 : ℚ) < 2 ∧ kernelBankAmended 11 2 :=
  ⟨by decide, by decide, C6_amended_kernel_bank 11 2 (by decide) (by decide)⟩

/-- Helper: padding a pulled batch that is not longer than the batch size
yields exactly a full batch. -/
theorem padTo_length_of_le (b : ℕ) (pad : α) (l : List α) (h : l.length ≤ b) :
    (padTo b pad l).length = b := by
  simp [padTo]
  omega

/-- Helper: `k` loop iterations write exactly `k * b` scores. -/
theorem batchLoop_length (b : ℕ) (pad : α) (score : α → β) :
    ∀ (k : ℕ) (rest : List α), (batchLoop b pad score k rest).length = k * b := by
  intro k
  induction k with
  | zero =>
    intro rest
    simp [batchLoop]
  | succ k ih =>
    intro rest
    simp only [batchLoop, List.length_append, List.length_map, ih]
    rw [padTo_length_of_le b pad _ (by simp)]
    ring

/-- Helper: `N ≤ ceil(N / b) * b` for positive `b`. -/
theorem le_ceilDiv_mul (n b : ℕ) (hb : 0 < b) : n ≤ ceilDiv n b * b := by
  unfold ceilDiv
  have h := Nat.lt_div_mul_add hb (a := n + b - 1)
  generalize hm : (n + b - 1) / b * b = m at *
  omega

/-- Helper: the first `rest.length` scores written by the loop are the
input points' scores in input order, provided enough iterations remain. -/
theorem batchLoop_take (b : ℕ) (pad : α) (score : α → β) :
    ∀ (k : ℕ) (rest : List α), rest.length ≤ k * b →
      (batchLoop b pad score k rest).take rest.length = rest.map score := by
  intro k
  induction k with
  | zero =>
    intro rest h
    simp only [Nat.zero_mul, Nat.le_zero, List.length_eq_zero] at h
    subst h
    simp [batchLoop]
  | succ k ih =>
    intro rest h
    by_cases hr : rest.length ≤ b
    · rw [batchLoop, List.take_of_length_le hr]
      unfold padTo
      rw [List.map_append, List.append_assoc]
      have hlm : rest.length = (rest.map score).length := (List.length_map _ _).symm
      rw [hlm, List.take_left]
    · push_neg at hr
      rw [batchLoop]
      have htk : (rest.take b).length = b := by
        rw [List.length_take]
        omega
      have hpad : padTo b pad (rest.take b) = rest.take b := by
        unfold padTo
        rw [htk]
        simp
      rw [hpad]
      have hlm : (List.map score (rest.take b)).length = b := by
        rw [List.length_map, htk]
      rw [List.take_append_eq_append_take, hlm,
        List.take_of_length_le (by rw [hlm]; omega)]
      have hdrop : (rest.drop b).length = rest.length - b := List.length_drop _ _
      have hrec : (batchLoop b pad score k (rest.drop b)).take (rest.length - b) =
          (rest.drop b).map score := by
        rw [← hdrop]
        refine ih (rest.drop b) ?_
        rw [hdrop]
        have hmul : (k + 1) * b = k * b + b := by ring
        omega
      rw [hrec, ← List.map_append, List.take_append_drop]

/-- C9 counterexample: with batch size 2 and 3 input pairs, the test loop
iterates `ceil(3/2) = 2` full batches and writes 4 score lines, not one
line per input pair. -/
theorem C9_counterexample :
    (testOutputScores 2 0 (fun n : ℕ => n) [1, 2, 3]).length = 4 ∧
    (testOutputScores 2 0 (fun n : ℕ => n) [1, 2, 3]).length ≠ 3 := by
  decide

/-- C9 amended: for a test file of `N` input pairs and batch size `B > 0`,
`KNRM.test` iterates `ceil(N / B)` fixed-size batches and writes exactly
`ceil(N / B) * B` score lines, one line per batch slot; the first `N` lines
are the scores of the `N` input pairs in input order (the remaining lines,
present only when `B` does not divide `N`, score the generator's padding);
when `B` divides `N` the output is exactly one line per input pair. -/
theorem C9_amended_test_output (b : ℕ) (pad : α) (score : α → β)
    (pairs : List α) (hb : 0 < b) :
    (testOutputScores b pad score pairs).length = ceilDiv pairs.length b * b ∧
    (testOutputScores b pad score pairs).take pairs.length = pairs.map score ∧
    (b ∣ pairs.length →
      (testOutputScores b pad score pairs).length = pairs.length) := by
  unfold testOutputScores
  refine ⟨batchLoop_length b pad score _ pairs, ?_, ?_⟩
  · exact batchLoop_take b pad score _ pairs (le_ceilDiv_mul _ _ hb)
  · intro hdvd
    rw [batchLoop_length b pad score _ pairs]
    obtain ⟨c, hc⟩ := hdvd
    rw [hc]
    unfold ceilDiv
    have he : b * c + b - 1 = (b - 1) + b * c := by omega
    rw [he, Nat.add_mul_div_left _ _ hb, Nat.div_eq_of_lt (by omega), Nat.zero_add,
      mul_comm]

/-- Witness for C9 (amended) at batch size 2 over four input pairs. -/
theorem C9_amended_test_output_witness :
    0 < 2 ∧ 2 ∣ 4 ∧
    (testOutputScores 2 0 (fun n : ℕ => n + 10) [1, 2, 3, 4]).length = 4 :=
  ⟨by decide, by decide,
    (C9_amended_test_output 2 0 (fun n : ℕ => n + 10) [1, 2, 3, 4]
      (by decide)).2.2 (by decide)⟩

end KNRM
